import Mathlib

/-!
Verification development for the `workgroup` coordination library.

The repository's `work.go` (present in full) is the Orchestrator: the
`Work`, `WorkFor` and `WorkChan` entry points.  The Manager policies
(`CancelNeverFirstError`, `CancelOnFirstError`, `CancelOnFirstSuccess`,
`CancelOnFirstComplete`, the `Recover`/`Repanic` decorators, `PanicError`,
`DefaultManager`) and the Executer constructors (`NewUnlimited`,
`NewLimited`, `NewPool`, `DefaultExecuter`) are declared and called by
`work.go` and its tests but their defining file is not part of the
available source; those parts are modelled from the specification text.

The embedding is a shallow one.  A run is linearized along its completion
order: the Manager's `Manage` calls are serialized by the run's atomic
sequence counter, so every concurrent execution corresponds to one
completion order, and theorems quantify over all completion orders.  Each
worker's behaviour in the run is a `WorkerRes`: either it returned an
error value (possibly nil) or it raised a runtime fault (panic).  An
entry-point call is embedded as a function producing the list of events
of the run: `Manage` calls (with the Go `err` variable's value as argument
and the returned sequence number), completion-counter decrements
(`wg.Done`), cancellations of the run's child scope, and the final exit
(normal return, re-raised fault, or a process-fatal fault escaping a
worker task).
-/

namespace Workgroup

/-- A Go `error` value as it occurs in this library: `nil` is represented
by `none : Option ErrVal`.  `msg` is an ordinary `fmt.Errorf` error,
`canceled` is `context.Canceled`, and `panicError` is the library's
`PanicError` wrapping a recovered panic value (rendered as text); its
`repanic` flag records whether it was created by the `Repanic` decorator,
in which case the value implements the `Panic()` re-raise capability
probed by the Orchestrator.  Modelled from the spec: `PanicError` itself
is defined in source not available here; the spec describes a FaultOutcome
with description `"panic: " + textual(value)` and an optional re-raise
capability. -/
inductive ErrVal
  | msg (s : String)
  | canceled
  | panicError (v : String) (repanic : Bool)
  deriving DecidableEq, Repr

/-- The `Error()` description of an error value.  `PanicError.Error()`
is `"panic: "` followed by the textual form of the panic value (as
checked by `TestRecoverManager`). -/
def ErrVal.error : ErrVal → String
  | .msg s => s
  | .canceled => "context canceled"
  | .panicError v _ => "panic: " ++ v

/-- The Orchestrator's capability probe `m.Result().(interface{ Panic() })`
from `work.go`: a result value supports re-raising exactly when it is a
`PanicError` created by `Repanic`; `Panic()` re-raises the original panic
value. -/
def panicCap : Option ErrVal → Option String
  | some (.panicError v true) => some v
  | _ => none

/-- The behaviour of one worker body within one run: it either returned
the error value `e` (`none` meaning a nil error), or it raised a runtime
fault (panicked) with the textual value `v`. -/
inductive WorkerRes
  | ok (e : Option ErrVal)
  | panics (v : String)
  deriving DecidableEq, Repr

/-- Whether a worker behaviour is a fault (panic). -/
def WorkerRes.isPanics : WorkerRes → Bool
  | .ok _ => false
  | .panics _ => true

/-- The value of the Go `err` variable at the deferred `m.Manage` call in
`work.go`: the worker's returned error on normal return, and `nil` when
the body panicked, because the assignment `err = worker(ctx)` never
completed. -/
def errArg : WorkerRes → Option ErrVal
  | .ok e => e
  | .panics _ => none

/-- Cancellation scopes, as far as the run logic observes them: the inert
`context.TODO()` used when the caller passes `nil`, `context.Background()`,
or any other caller-supplied parent scope. -/
inductive Ctx
  | todo
  | background
  | other (id : Nat)
  deriving DecidableEq, Repr

/-- The Executer variants: `NewUnlimited()` spawns a task per submission,
`NewLimited(k)` bounds concurrency by a capacity-`k` semaphore, and
`NewPool(ctx, k)` owns `k` persistent worker tasks.  Modelled from the
spec: executer source is not available here; the Executer affects only
scheduling (which completion orders are possible and how many bodies run
at once, modelled separately below), never the set of executed workers. -/
inductive Executer
  | unlimited
  | limited (k : Nat)
  | pool (k : Nat)
  deriving DecidableEq, Repr

/-- Constructor `NewUnlimited()`. -/
def NewUnlimited : Executer := .unlimited

/-- Constructor `NewLimited(k)`. -/
def NewLimited (k : Nat) : Executer := .limited k

/-- Constructor `NewPool(ctx, k)`; the scope only controls the pool's
lifetime, not which workers run. -/
def NewPool (_ctx : Ctx) (k : Nat) : Executer := .pool k

/-- Modelled from the spec: `DefaultExecuter()` (source not available)
returns the unbounded executer — "missing executer defaults to
Unbounded". -/
def DefaultExecuter : Executer := NewUnlimited

/-- The shared per-run Manager state.  Modelled from the spec: the
Manager source is not available; the spec prescribes a single atomic
completion-sequence counter (`seq`, strictly increasing from 1) and a
compare-and-set "have we decided yet" aggregate.  `firstErr` is the first
non-nil outcome by completion order, `sawNil` records whether any nil
outcome was observed, and `firstOut` the outcome of the sequence-1 call. -/
structure MgrSt where
  seq : Nat
  sawNil : Bool
  firstErr : Option ErrVal
  firstOut : Option (Option ErrVal)
  deriving DecidableEq, Repr

/-- The initial Manager state of a run. -/
def mgrInit : MgrSt := ⟨0, false, none, none⟩

/-- First-writer-wins update of a compare-and-set cell: a value already
decided is kept, an undecided cell takes the proposed value. -/
def keepFirst {α : Type _} : Option α → Option α → Option α
  | some a, _ => some a
  | none, o => o

/-- The state update and sequence-number assignment shared by every
`Manage` call.  Modelled from the spec: the counter is a single shared
atomic increment, so the call made in state `s` returns `s.seq + 1`;
the aggregate fields are first-writer-wins (compare-and-set). -/
def mgrStep (s : MgrSt) (out : Option ErrVal) : MgrSt × Nat :=
  (⟨s.seq + 1,
    s.sawNil || out.isNone,
    keepFirst s.firstErr out,
    keepFirst s.firstOut (some out)⟩,
   s.seq + 1)

/-- A Manager: the cancellation/aggregation policy of one run.  Modelled
from the spec: `recovers` says whether `Manage` recovers an in-flight
panic (the `Recover`/`Repanic` decorators), `repanics` whether the
recovered fault is wrapped with the re-raise capability (`Repanic`);
`cancelOn` is the policy's decision, given the pre-call aggregate state
and the managed outcome, to invoke the Canceller; `resultSt` is
`Result()`, reading (and possibly updating, for generality) the aggregate
state. -/
structure Manager where
  recovers : Bool
  repanics : Bool
  cancelOn : MgrSt → Option ErrVal → Bool
  resultSt : MgrSt → Option ErrVal × MgrSt

/-- The outcome a `Manage` call processes for worker behaviour `r`: the
returned error on normal return; for a panicking body, a recovering
Manager recovers the fault and forwards a `PanicError` to its policy,
while a non-recovering Manager sees the nil `err` variable (and the fault
then escapes). -/
def effOut (m : Manager) : WorkerRes → Option ErrVal
  | .ok e => e
  | .panics v => if m.recovers then some (.panicError v m.repanics) else none

/-- Modelled from the spec: `CancelNeverFirstError()` (source not
available) never cancels and reports the first non-nil outcome by
completion order, else nil. -/
def CancelNeverFirstError : Manager where
  recovers := false
  repanics := false
  cancelOn := fun _ _ => false
  resultSt := fun s => (s.firstErr, s)

/-- Modelled from the spec: `CancelOnFirstError()` (source not available)
cancels on the first non-nil outcome and reports that outcome. -/
def CancelOnFirstError : Manager where
  recovers := false
  repanics := false
  cancelOn := fun s out => s.firstErr.isNone && out.isSome
  resultSt := fun s => (s.firstErr, s)

/-- Modelled from the spec: `CancelOnFirstSuccess()` (source not
available) cancels on the first nil outcome; its result is nil if any nil
outcome was observed, else the first non-nil outcome. -/
def CancelOnFirstSuccess : Manager where
  recovers := false
  repanics := false
  cancelOn := fun s out => !s.sawNil && out.isNone
  resultSt := fun s => (if s.sawNil then none else s.firstErr, s)

/-- Modelled from the spec: `CancelOnFirstComplete()` (source not
available) cancels on the very first `Manage` call and reports that
call's outcome. -/
def CancelOnFirstComplete : Manager where
  recovers := false
  repanics := false
  cancelOn := fun s _ => s.seq == 0
  resultSt := fun s => ((s.firstOut).getD none, s)

/-- Modelled from the spec: `Recover(m)` (source not available) wraps `m`
so that a fault raised from a worker body is recovered inside the
deferred `Manage` call and forwarded to `m` as a `PanicError`, as if it
were a normal failure outcome. -/
def Recover (m : Manager) : Manager :=
  { m with recovers := true }

/-- Modelled from the spec: `Repanic(m)` (source not available) behaves
like `Recover(m)` but wraps the fault in a `PanicError` carrying the
re-raise capability, so the Orchestrator re-raises the original value
after the run drains. -/
def Repanic (m : Manager) : Manager :=
  { m with recovers := true, repanics := true }

/-- Modelled from the spec: `DefaultManager()` (source not available)
returns the `CancelNeverFirstError` policy — "missing manager defaults to
CancelNeverFirstError". -/
def DefaultManager : Manager := CancelNeverFirstError

/-- One event of a run, in linearized order: a `Manage` call (recording
the `err` argument passed at the call and the sequence number it
returned), a completion-counter decrement (`wg.Done`), a cancellation of
the run's child scope (by the Canceller or by the deferred `cancel`), a
normal return carrying the run's result, a fault re-raised on the calling
task by `r.Panic()`, or a fault escaping a worker task (process-fatal). -/
inductive REv
  | manage (arg : Option ErrVal) (seq : Nat)
  | done
  | cancelChild
  | exitRet (e : Option ErrVal)
  | exitPanic (v : String)
  | exitFatal (v : String)
  deriving DecidableEq, Repr

/-- The events of the per-worker closures of `work.go`, processed in
completion order, threading the Manager state.  Each closure runs the
body, then (deferred, innermost first) calls `m.Manage(ctx, canceller,
err)` — during which the policy may invoke the Canceller — and then
`wg.Done()`.  A fault from the body is either recovered inside `Manage`
(recovering Manager) or resumes unwinding after the deferred calls and
kills the process, ending the run.  Returns the events, the final Manager
state, and the escaped fault value if any. -/
def runTasks (m : Manager) : MgrSt → List WorkerRes → List REv × MgrSt × Option String
  | s, [] => ([], s, none)
  | s, r :: rs =>
    let out := effOut m r
    let creq := m.cancelOn s out
    let sn := mgrStep s out
    let evs := REv.manage (errArg r) sn.2 ::
      (if creq then [REv.cancelChild, REv.done] else [REv.done])
    match r with
    | .panics v =>
      if m.recovers then
        let rest := runTasks m sn.1 rs
        (evs ++ rest.1, rest.2)
      else
        (evs ++ [REv.exitFatal v], sn.1, some v)
    | .ok _ =>
      let rest := runTasks m sn.1 rs
      (evs ++ rest.1, rest.2)

/-- The tail of every entry point of `work.go`: after `wg.Wait()` returns
(all workers done), probe `m.Result()` for the `Panic()` capability and
re-raise if present, otherwise return `m.Result()` (a second call); the
deferred `cancel()` of the child scope runs on either exit.  If a fault
escaped a worker task, the process dies while the calling task is still
blocked in `wg.Wait()`: no cancel, no return. -/
def finishRun (m : Manager) (g : List WorkerRes) : List REv :=
  let t := runTasks m mgrInit g
  match t.2.2 with
  | some _ => t.1
  | none =>
    let r1 := m.resultSt t.2.1
    match panicCap r1.1 with
    | some v => t.1 ++ [REv.cancelChild, REv.exitPanic v]
    | none =>
      let r2 := m.resultSt r1.2
      t.1 ++ [REv.cancelChild, REv.exitRet r2.1]

/-- `Work(ctx, e, m, g...)` from `work.go`: a `nil` scope becomes
`context.TODO()`, a `nil` executer becomes `DefaultExecuter()`, a `nil`
manager becomes `DefaultManager()`; then the run executes the workers
and finalizes.  `g` lists the workers' behaviours in the run's completion
order (the executer only influences which orders are possible, so
theorems quantify over them). -/
def Work (ctx : Option Ctx) (e : Option Executer) (m : Option Manager)
    (g : List WorkerRes) : List REv :=
  let _ctx : Ctx := match ctx with | none => Ctx.todo | some c => c
  let _e : Executer := match e with | none => DefaultExecuter | some e => e
  let mm : Manager := match m with | none => DefaultManager | some m => m
  finishRun mm g

/-- `WorkFor(ctx, n, e, m, w)` from `work.go`: the same protocol over the
indexed worker `w` run at indices `0..n-1`; `ord` is the completion order,
a permutation of those indices. -/
def WorkFor (ctx : Option Ctx) (n : Nat) (e : Option Executer) (m : Option Manager)
    (w : Nat → WorkerRes) (ord : List Nat) : List REv :=
  let _ctx : Ctx := match ctx with | none => Ctx.todo | some c => c
  let _e : Executer := match e with | none => DefaultExecuter | some e => e
  let mm : Manager := match m with | none => DefaultManager | some m => m
  let _n : Nat := n
  finishRun mm (ord.map w)

/-- `WorkChan(ctx, e, m, g)` from `work.go`: the same protocol over the
workers drained from the channel; `g` lists their behaviours in
completion order. -/
def WorkChan (ctx : Option Ctx) (e : Option Executer) (m : Option Manager)
    (g : List WorkerRes) : List REv :=
  let _ctx : Ctx := match ctx with | none => Ctx.todo | some c => c
  let _e : Executer := match e with | none => DefaultExecuter | some e => e
  let mm : Manager := match m with | none => DefaultManager | some m => m
  finishRun mm g

/-- The manager an entry point actually uses for argument `m`. -/
def mgrOf : Option Manager → Manager
  | none => DefaultManager
  | some m => m

/-- The `err` arguments of the `Manage` calls of a run, in call order. -/
def manageArgs (l : List REv) : List (Option ErrVal) :=
  l.filterMap fun e => match e with | .manage a _ => some a | _ => none

/-- The sequence numbers returned by the `Manage` calls of a run, in call
order. -/
def manageSeqs (l : List REv) : List Nat :=
  l.filterMap fun e => match e with | .manage _ n => some n | _ => none

/-- The number of completion-counter decrements (`wg.Done`) in a run. -/
def countDone (l : List REv) : Nat :=
  l.countP fun e => match e with | .done => true | _ => false

/-- The number of child-scope cancellations in a run. -/
def countCancel (l : List REv) : Nat :=
  l.countP fun e => match e with | .cancelChild => true | _ => false

/-- No fault escapes the run: either the Manager recovers faults, or no
worker body panics. -/
def noFatalB (m : Manager) (g : List WorkerRes) : Bool :=
  m.recovers || g.all fun r => ! r.isPanics

/-- Every `wg.Done` is preceded by its `Manage` call: in every prefix of
the run's events, the decrements never outnumber the `Manage` calls. -/
def manageBeforeDone (l : List REv) : Prop :=
  ∀ p, p <+: l → countDone p ≤ (manageArgs p).length

/-- No fault escapes the run, as a proposition: either the Manager
recovers faults, or no worker body panics. -/
def NoFatal (m : Manager) (g : List WorkerRes) : Prop :=
  m.recovers = true ∨ ∀ r ∈ g, r.isPanics = false

instance (m : Manager) (g : List WorkerRes) : Decidable (NoFatal m g) := by
  unfold NoFatal; infer_instance

/-- The first non-nil error value of a list of outcomes, in order;
`none` when every outcome is nil. -/
def firstSome : List (Option ErrVal) → Option ErrVal
  | [] => none
  | none :: l => firstSome l
  | some e :: _ => some e

/-!  Scheduling model of the Bounded and Pool Executers.  Modelled from
the spec: the executer source is not available here.  `Bounded(k)` owns a
counting semaphore of capacity `k`: every submission immediately spawns a
task which must acquire a slot before running its body; `Pool(_, k)` owns
`k` persistent worker tasks draining a queue, so at most `k` bodies run
at once.  Both are abstracted as the same guarded transition system over
a state counting submitted-but-not-started and currently-running bodies:
`submit` (the `Execute` call, always enabled — it never blocks the
caller), `start` (a body begins, only when a slot is free), and `finish`
(a body ends). -/

/-- Scheduling state of a bounded executer: submitted actions not yet
started, and bodies currently executing. -/
structure SemSt where
  pending : Nat
  running : Nat
  deriving DecidableEq, Repr

/-- A scheduling event: a submission via `Execute`, the start of an
action's body, or its completion. -/
inductive SemEv
  | submit
  | start
  | finish
  deriving DecidableEq, Repr

/-- One guarded step of a capacity-`k` executer: `submit` is always
enabled; `start` requires a pending action and a free slot (fewer than
`k` bodies running); `finish` requires a running body. -/
def semStep (k : Nat) (s : SemSt) : SemEv → Option SemSt
  | .submit => some ⟨s.pending + 1, s.running⟩
  | .start =>
    if 0 < s.pending ∧ s.running < k then some ⟨s.pending - 1, s.running + 1⟩
    else none
  | .finish =>
    if 0 < s.running then some ⟨s.pending, s.running - 1⟩ else none

/-- One guarded step of the unbounded executer: `start` needs no slot. -/
def semStepU (s : SemSt) : SemEv → Option SemSt
  | .submit => some ⟨s.pending + 1, s.running⟩
  | .start =>
    if 0 < s.pending then some ⟨s.pending - 1, s.running + 1⟩ else none
  | .finish =>
    if 0 < s.running then some ⟨s.pending, s.running - 1⟩ else none

/-- One scheduling step of an Executer.  `NewLimited(k)` and
`NewPool(_, k)` both admit at most `k` concurrently running bodies. -/
def execStep : Executer → SemSt → SemEv → Option SemSt
  | .unlimited, s, ev => semStepU s ev
  | .limited k, s, ev => semStep k s ev
  | .pool k, s, ev => semStep k s ev

/-- Run a scheduling trace through an Executer; `none` when some event
was not enabled (the trace is not a possible schedule). -/
def execRun (e : Executer) : SemSt → List SemEv → Option SemSt
  | s, [] => some s
  | s, ev :: l => (execStep e s ev).bind fun s' => execRun e s' l

/-! ### Helper lemmas -/

theorem mgrStep_snd (s : MgrSt) (out : Option ErrVal) : (mgrStep s out).2 = s.seq + 1 := rfl

theorem mgrStep_seq (s : MgrSt) (out : Option ErrVal) : (mgrStep s out).1.seq = s.seq + 1 := rfl

theorem runTasks_nil (m : Manager) (s : MgrSt) : runTasks m s [] = ([], s, none) := rfl

theorem runTasks_cons_ok (m : Manager) (s : MgrSt) (e : Option ErrVal) (rs : List WorkerRes) :
    runTasks m s (.ok e :: rs) =
      (REv.manage e (s.seq + 1) ::
        ((if m.cancelOn s e then [REv.cancelChild, REv.done] else [REv.done]) ++
          (runTasks m (mgrStep s e).1 rs).1),
       (runTasks m (mgrStep s e).1 rs).2) := by
  simp [runTasks, effOut, errArg, mgrStep_snd]

theorem runTasks_cons_panics_rec (m : Manager) (s : MgrSt) (v : String) (rs : List WorkerRes)
    (h : m.recovers = true) :
    runTasks m s (.panics v :: rs) =
      (REv.manage none (s.seq + 1) ::
        ((if m.cancelOn s (some (.panicError v m.repanics)) then [REv.cancelChild, REv.done]
          else [REv.done]) ++
          (runTasks m (mgrStep s (some (.panicError v m.repanics))).1 rs).1),
       (runTasks m (mgrStep s (some (.panicError v m.repanics))).1 rs).2) := by
  simp [runTasks, effOut, errArg, h, mgrStep_snd]

theorem runTasks_cons_panics_norec (m : Manager) (s : MgrSt) (v : String) (rs : List WorkerRes)
    (h : m.recovers = false) :
    runTasks m s (.panics v :: rs) =
      (REv.manage none (s.seq + 1) ::
        ((if m.cancelOn s none then [REv.cancelChild, REv.done] else [REv.done]) ++
          [REv.exitFatal v]),
       (mgrStep s none).1, some v) := by
  simp [runTasks, effOut, errArg, h, mgrStep_snd]

theorem manageArgs_append (a b : List REv) :
    manageArgs (a ++ b) = manageArgs a ++ manageArgs b := by
  simp [manageArgs]

theorem manageSeqs_append (a b : List REv) :
    manageSeqs (a ++ b) = manageSeqs a ++ manageSeqs b := by
  simp [manageSeqs]

theorem countDone_append (a b : List REv) :
    countDone (a ++ b) = countDone a + countDone b := by
  simp [countDone]

theorem countCancel_append (a b : List REv) :
    countCancel (a ++ b) = countCancel a + countCancel b := by
  simp [countCancel]

theorem pref_cons_cases {α : Type _} {p : List α} {x : α} {l : List α} (h : p <+: x :: l) :
    p = [] ∨ ∃ q, p = x :: q ∧ q <+: l := by
  rcases h with ⟨t, ht⟩
  cases p with
  | nil => exact Or.inl rfl
  | cons y p' =>
    simp only [List.cons_append, List.cons.injEq] at ht
    obtain ⟨rfl, h2⟩ := ht
    exact Or.inr ⟨p', rfl, ⟨t, h2⟩⟩

theorem pref_append_cases {α : Type _} {p a b : List α} (h : p <+: a ++ b) :
    p <+: a ∨ ∃ q, p = a ++ q ∧ q <+: b := by
  induction a generalizing p with
  | nil => exact Or.inr ⟨p, rfl, h⟩
  | cons x a ih =>
    rcases pref_cons_cases h with rfl | ⟨q, rfl, hq⟩
    · exact Or.inl ⟨_, rfl⟩
    · rcases ih hq with h' | ⟨q', rfl, hq'⟩
      · rcases h' with ⟨t, rfl⟩
        exact Or.inl ⟨t, rfl⟩
      · exact Or.inr ⟨q', rfl, hq'⟩

theorem countDone_le_pref {p l : List REv} (h : p <+: l) : countDone p ≤ countDone l :=
  List.Sublist.countP_le _ h.sublist

theorem mbd_of_no_done {l : List REv} (h : countDone l = 0) : manageBeforeDone l := by
  intro p hp
  have h1 : countDone p ≤ countDone l := countDone_le_pref hp
  omega

theorem mbd_append {a b : List REv} (h1 : manageBeforeDone a) (h2 : manageBeforeDone b) :
    manageBeforeDone (a ++ b) := by
  intro p hp
  rcases pref_append_cases hp with h | ⟨q, rfl, hq⟩
  · exact h1 p h
  · have ha := h1 a (⟨[], List.append_nil a⟩)
    have hb := h2 q hq
    rw [countDone_append, manageArgs_append, List.length_append]
    omega

theorem mbd_block (a : Option ErrVal) (n : Nat) (c : Bool) :
    manageBeforeDone (REv.manage a n ::
      (if c then [REv.cancelChild, REv.done] else [REv.done])) := by
  intro p hp
  rcases pref_cons_cases hp with rfl | ⟨q, rfl, hq⟩
  · simp [countDone, manageArgs]
  · have hq' : countDone q ≤
        countDone (if c then [REv.cancelChild, REv.done] else [REv.done]) :=
      countDone_le_pref hq
    have hblk : countDone (if c then [REv.cancelChild, REv.done] else [REv.done]) = 1 := by
      cases c <;> decide
    rw [hblk] at hq'
    have e1 : countDone (REv.manage a n :: q) = countDone q := by simp [countDone]
    have e2 : (manageArgs (REv.manage a n :: q)).length = (manageArgs q).length + 1 := by
      simp [manageArgs]
    rw [e1, e2]
    omega

theorem manageSeqs_block_append (a : Option ErrVal) (n : Nat) (c : Bool) (rest : List REv) :
    manageSeqs (REv.manage a n ::
      ((if c then [REv.cancelChild, REv.done] else [REv.done]) ++ rest)) =
      n :: manageSeqs rest := by
  cases c <;> simp [manageSeqs]

theorem manageArgs_block_append (a : Option ErrVal) (n : Nat) (c : Bool) (rest : List REv) :
    manageArgs (REv.manage a n ::
      ((if c then [REv.cancelChild, REv.done] else [REv.done]) ++ rest)) =
      a :: manageArgs rest := by
  cases c <;> simp [manageArgs]

theorem countDone_block_append (a : Option ErrVal) (n : Nat) (c : Bool) (rest : List REv) :
    countDone (REv.manage a n ::
      ((if c then [REv.cancelChild, REv.done] else [REv.done]) ++ rest)) =
      1 + countDone rest := by
  cases c <;> simp [countDone] <;> omega

theorem countCancel_block_append (a : Option ErrVal) (n : Nat) (c : Bool) (rest : List REv) :
    countCancel (REv.manage a n ::
      ((if c then [REv.cancelChild, REv.done] else [REv.done]) ++ rest)) =
      (if c then 1 else 0) + countCancel rest := by
  cases c <;> (simp [countCancel]; try omega)

theorem noFatal_cons {m : Manager} {r : WorkerRes} {rs : List WorkerRes}
    (h : NoFatal m (r :: rs)) : NoFatal m rs := by
  rcases h with h | h
  · exact Or.inl h
  · exact Or.inr fun x hx => h x (List.mem_cons_of_mem _ hx)

theorem noFatal_panics_head {m : Manager} {v : String} {rs : List WorkerRes}
    (h : NoFatal m (.panics v :: rs)) : m.recovers = true := by
  rcases h with h | h
  · exact h
  · have := h (.panics v) (List.mem_cons_self _ _)
    simp [WorkerRes.isPanics] at this

theorem mbd_runTasks (m : Manager) (l : List WorkerRes) : ∀ s : MgrSt,
    manageBeforeDone (runTasks m s l).1 := by
  induction l with
  | nil =>
    intro s
    rw [runTasks_nil]
    exact mbd_of_no_done rfl
  | cons r rs ih =>
    intro s
    cases r with
    | ok e =>
      simp only [runTasks_cons_ok]
      rw [← List.cons_append]
      exact mbd_append (mbd_block _ _ _) (ih _)
    | panics v =>
      cases hr : m.recovers with
      | true =>
        simp only [runTasks_cons_panics_rec _ _ _ _ hr]
        rw [← List.cons_append]
        exact mbd_append (mbd_block _ _ _) (ih _)
      | false =>
        simp only [runTasks_cons_panics_norec _ _ _ _ hr]
        rw [← List.cons_append]
        exact mbd_append (mbd_block _ _ _) (mbd_of_no_done rfl)

theorem manageSeqs_runTasks (m : Manager) (l : List WorkerRes) : ∀ s : MgrSt,
    manageSeqs (runTasks m s l).1 =
      List.range' (s.seq + 1) (manageArgs (runTasks m s l).1).length := by
  induction l with
  | nil =>
    intro s
    simp [runTasks_nil, manageSeqs, manageArgs]
  | cons r rs ih =>
    intro s
    cases r with
    | ok e =>
      simp only [runTasks_cons_ok, manageSeqs_block_append, manageArgs_block_append,
        List.length_cons, List.range'_succ]
      rw [ih, mgrStep_seq]
    | panics v =>
      cases hr : m.recovers with
      | true =>
        simp only [runTasks_cons_panics_rec _ _ _ _ hr, manageSeqs_block_append,
          manageArgs_block_append, List.length_cons, List.range'_succ]
        rw [ih, mgrStep_seq]
      | false =>
        simp only [runTasks_cons_panics_norec _ _ _ _ hr]
        cases hc : m.cancelOn s none <;>
          simp [manageSeqs, manageArgs, List.range'_succ]

theorem runTasks_parts (m : Manager) (l : List WorkerRes) : ∀ s : MgrSt, NoFatal m l →
    (runTasks m s l).2.2 = none ∧
    manageArgs (runTasks m s l).1 = l.map errArg ∧
    countDone (runTasks m s l).1 = l.length ∧
    (runTasks m s l).2.1.seq = s.seq + l.length := by
  induction l with
  | nil =>
    intro s _
    simp [runTasks_nil, manageArgs, countDone]
  | cons r rs ih =>
    intro s h
    have hrs := noFatal_cons h
    cases r with
    | ok e =>
      obtain ⟨h1, h2, h3, h4⟩ := ih (mgrStep s e).1 hrs
      refine ⟨by simpa [runTasks_cons_ok] using h1, ?_, ?_, ?_⟩
      · simp only [runTasks_cons_ok, manageArgs_block_append, h2, List.map_cons, errArg]
      · simp only [runTasks_cons_ok, countDone_block_append, h3, List.length_cons]
        omega
      · simp only [runTasks_cons_ok, h4, mgrStep_seq, List.length_cons]
        omega
    | panics v =>
      have hr := noFatal_panics_head h
      obtain ⟨h1, h2, h3, h4⟩ := ih (mgrStep s (some (.panicError v m.repanics))).1 hrs
      refine ⟨by simpa [runTasks_cons_panics_rec _ _ _ _ hr] using h1, ?_, ?_, ?_⟩
      · simp only [runTasks_cons_panics_rec _ _ _ _ hr, manageArgs_block_append, h2,
          List.map_cons, errArg]
      · simp only [runTasks_cons_panics_rec _ _ _ _ hr, countDone_block_append, h3,
          List.length_cons]
        omega
      · simp only [runTasks_cons_panics_rec _ _ _ _ hr, h4, mgrStep_seq, List.length_cons]
        omega

theorem keepFirst_assoc {α : Type _} (a b c : Option α) :
    keepFirst (keepFirst a b) c = keepFirst a (keepFirst b c) := by
  cases a <;> cases b <;> rfl

theorem firstSome_cons (x : Option ErrVal) (l : List (Option ErrVal)) :
    firstSome (x :: l) = keepFirst x (firstSome l) := by
  cases x <;> rfl

theorem firstSome_all_none {l : List (Option ErrVal)} (h : ∀ x ∈ l, x = none) :
    firstSome l = none := by
  induction l with
  | nil => rfl
  | cons x l ih =>
    have hx := h x (List.mem_cons_self _ _)
    subst hx
    exact ih fun y hy => h y (List.mem_cons_of_mem _ hy)

theorem firstSome_append_none {l1 l2 : List (Option ErrVal)} (h : ∀ x ∈ l1, x = none) :
    firstSome (l1 ++ l2) = firstSome l2 := by
  induction l1 with
  | nil => rfl
  | cons x l ih =>
    have hx := h x (List.mem_cons_self _ _)
    subst hx
    exact ih fun y hy => h y (List.mem_cons_of_mem _ hy)

theorem runTasks_firstErr (m : Manager) (l : List WorkerRes) : ∀ s : MgrSt, NoFatal m l →
    (runTasks m s l).2.1.firstErr = keepFirst s.firstErr (firstSome (l.map (effOut m))) := by
  induction l with
  | nil =>
    intro s _
    simp [runTasks_nil, firstSome]
    cases h : s.firstErr <;> rfl
  | cons r rs ih =>
    intro s h
    have hrs := noFatal_cons h
    cases r with
    | ok e =>
      have := ih (mgrStep s e).1 hrs
      simp only [runTasks_cons_ok]
      rw [this]
      show keepFirst (keepFirst s.firstErr e) _ = _
      rw [keepFirst_assoc, List.map_cons, firstSome_cons]
      rfl
    | panics v =>
      have hr := noFatal_panics_head h
      have := ih (mgrStep s (some (.panicError v m.repanics))).1 hrs
      simp only [runTasks_cons_panics_rec _ _ _ _ hr]
      rw [this]
      show keepFirst (keepFirst s.firstErr (some (.panicError v m.repanics))) _ = _
      rw [keepFirst_assoc, List.map_cons, firstSome_cons]
      have : effOut m (.panics v) = some (.panicError v m.repanics) := by
        simp [effOut, hr]
      rw [this]

theorem countCancel_runTasks_nocancel (m : Manager)
    (hc : ∀ s out, m.cancelOn s out = false) (l : List WorkerRes) : ∀ s : MgrSt,
    countCancel (runTasks m s l).1 = 0 := by
  induction l with
  | nil =>
    intro s
    simp [runTasks_nil, countCancel]
  | cons r rs ih =>
    intro s
    cases r with
    | ok e =>
      have h' := ih (mgrStep s e).1
      simp [runTasks_cons_ok, hc, countCancel, List.countP_cons] at h' ⊢
      exact h'
    | panics v =>
      cases hr : m.recovers with
      | true =>
        have h' := ih (mgrStep s (some (.panicError v m.repanics))).1
        simp [runTasks_cons_panics_rec _ _ _ _ hr, hc, countCancel, List.countP_cons] at h' ⊢
        exact h'
      | false =>
        simp [runTasks_cons_panics_norec _ _ _ _ hr, hc, countCancel, List.countP_cons]

theorem runTasks_append (m : Manager) (l1 : List WorkerRes) : ∀ (l2 : List WorkerRes)
    (s : MgrSt), NoFatal m l1 →
    runTasks m s (l1 ++ l2) =
      ((runTasks m s l1).1 ++ (runTasks m (runTasks m s l1).2.1 l2).1,
       (runTasks m (runTasks m s l1).2.1 l2).2) := by
  induction l1 with
  | nil =>
    intro l2 s _
    simp [runTasks_nil]
  | cons r rs ih =>
    intro l2 s h
    have hrs := noFatal_cons h
    cases r with
    | ok e =>
      rw [List.cons_append]
      simp only [runTasks_cons_ok, ih l2 _ hrs, List.cons_append, List.append_assoc]
    | panics v =>
      have hr := noFatal_panics_head h
      rw [List.cons_append]
      simp only [runTasks_cons_panics_rec _ _ _ _ hr, ih l2 _ hrs, List.cons_append,
        List.append_assoc]

theorem finishRun_fatal {m : Manager} {g : List WorkerRes} {v : String}
    (h : (runTasks m mgrInit g).2.2 = some v) :
    finishRun m g = (runTasks m mgrInit g).1 := by
  simp [finishRun, h]

theorem finishRun_repanic {m : Manager} {g : List WorkerRes} {v : String}
    (h1 : (runTasks m mgrInit g).2.2 = none)
    (h2 : panicCap (m.resultSt (runTasks m mgrInit g).2.1).1 = some v) :
    finishRun m g = (runTasks m mgrInit g).1 ++ [REv.cancelChild, REv.exitPanic v] := by
  simp [finishRun, h1, h2]

theorem finishRun_ret {m : Manager} {g : List WorkerRes}
    (h1 : (runTasks m mgrInit g).2.2 = none)
    (h2 : panicCap (m.resultSt (runTasks m mgrInit g).2.1).1 = none) :
    finishRun m g = (runTasks m mgrInit g).1 ++
      [REv.cancelChild,
       REv.exitRet (m.resultSt (m.resultSt (runTasks m mgrInit g).2.1).2).1] := by
  simp [finishRun, h1, h2]

theorem Work_eq (octx : Option Ctx) (oe : Option Executer) (om : Option Manager)
    (g : List WorkerRes) : Work octx oe om g = finishRun (mgrOf om) g := by
  cases octx <;> cases oe <;> cases om <;> rfl

theorem WorkFor_eq (octx : Option Ctx) (n : Nat) (oe : Option Executer) (om : Option Manager)
    (w : Nat → WorkerRes) (ord : List Nat) :
    WorkFor octx n oe om w ord = finishRun (mgrOf om) (ord.map w) := by
  cases octx <;> cases oe <;> cases om <;> rfl

theorem WorkChan_eq (octx : Option Ctx) (oe : Option Executer) (om : Option Manager)
    (g : List WorkerRes) : WorkChan octx oe om g = finishRun (mgrOf om) g := by
  cases octx <;> cases oe <;> cases om <;> rfl

theorem manageArgs_finishRun (m : Manager) (g : List WorkerRes) :
    manageArgs (finishRun m g) = manageArgs (runTasks m mgrInit g).1 := by
  rcases hf : (runTasks m mgrInit g).2.2 with _ | v
  · rcases hcap : panicCap (m.resultSt (runTasks m mgrInit g).2.1).1 with _ | v
    · rw [finishRun_ret hf hcap, manageArgs_append]
      simp [manageArgs]
    · rw [finishRun_repanic hf hcap, manageArgs_append]
      simp [manageArgs]
  · rw [finishRun_fatal hf]

theorem manageSeqs_finishRun (m : Manager) (g : List WorkerRes) :
    manageSeqs (finishRun m g) = manageSeqs (runTasks m mgrInit g).1 := by
  rcases hf : (runTasks m mgrInit g).2.2 with _ | v
  · rcases hcap : panicCap (m.resultSt (runTasks m mgrInit g).2.1).1 with _ | v
    · rw [finishRun_ret hf hcap, manageSeqs_append]
      simp [manageSeqs]
    · rw [finishRun_repanic hf hcap, manageSeqs_append]
      simp [manageSeqs]
  · rw [finishRun_fatal hf]

theorem countDone_finishRun (m : Manager) (g : List WorkerRes) :
    countDone (finishRun m g) = countDone (runTasks m mgrInit g).1 := by
  rcases hf : (runTasks m mgrInit g).2.2 with _ | v
  · rcases hcap : panicCap (m.resultSt (runTasks m mgrInit g).2.1).1 with _ | v
    · rw [finishRun_ret hf hcap, countDone_append]
      simp [countDone]
    · rw [finishRun_repanic hf hcap, countDone_append]
      simp [countDone]
  · rw [finishRun_fatal hf]

/-! ### The claims -/

/-- C1: for every run started via `Work`, `WorkFor` or `WorkChan` and
every worker of the run, `Manager.Manage` is called exactly once for that
worker — the `Manage` arguments are, in completion order, exactly one per
worker — and every decrement of the completion counter is preceded by the
`Manage` call of the worker it completes (in every prefix of the run's
events the decrements never outnumber the `Manage` calls), even when a
worker body panics (the run then requires a recovering Manager for the
counters to drain, which the hypothesis allows). -/
theorem manage_called_once_before_decrement
    (octx : Option Ctx) (oe : Option Executer) (om : Option Manager) (g : List WorkerRes)
    (hnf : NoFatal (mgrOf om) g) :
    (manageBeforeDone (Work octx oe om g) ∧
      manageArgs (Work octx oe om g) = g.map errArg ∧
      countDone (Work octx oe om g) = g.length) ∧
    (∀ (n : Nat) (w : Nat → WorkerRes) (ord : List Nat),
      WorkFor octx n oe om w ord = Work octx oe om (ord.map w)) ∧
    (∀ q : List WorkerRes, WorkChan octx oe om q = Work octx oe om q) := by
  obtain ⟨h1, h2, h3, _⟩ := runTasks_parts (mgrOf om) g mgrInit hnf
  refine ⟨⟨?_, ?_, ?_⟩, ?_, ?_⟩
  · rw [Work_eq]
    rcases hcap : panicCap ((mgrOf om).resultSt (runTasks (mgrOf om) mgrInit g).2.1).1 with _ | v
    · rw [finishRun_ret h1 hcap]
      exact mbd_append (mbd_runTasks _ _ _) (mbd_of_no_done rfl)
    · rw [finishRun_repanic h1 hcap]
      exact mbd_append (mbd_runTasks _ _ _) (mbd_of_no_done rfl)
  · rw [Work_eq, manageArgs_finishRun, h2]
  · rw [Work_eq, countDone_finishRun, h3]
  · intro n w ord
    rw [WorkFor_eq, Work_eq]
  · intro q
    rw [WorkChan_eq, Work_eq]

theorem manage_called_once_before_decrement_witness :
    NoFatal (mgrOf (some (Repanic CancelOnFirstError))) [.ok none, .panics "b"] ∧
    ((manageBeforeDone
        (Work none none (some (Repanic CancelOnFirstError)) [.ok none, .panics "b"]) ∧
      manageArgs (Work none none (some (Repanic CancelOnFirstError)) [.ok none, .panics "b"]) =
        [WorkerRes.ok none, WorkerRes.panics "b"].map errArg ∧
      countDone (Work none none (some (Repanic CancelOnFirstError)) [.ok none, .panics "b"]) =
        [WorkerRes.ok none, WorkerRes.panics "b"].length) ∧
    (∀ (n : Nat) (w : Nat → WorkerRes) (ord : List Nat),
      WorkFor none n none (some (Repanic CancelOnFirstError)) w ord =
        Work none none (some (Repanic CancelOnFirstError)) (ord.map w)) ∧
    (∀ q : List WorkerRes, WorkChan none none (some (Repanic CancelOnFirstError)) q =
        Work none none (some (Repanic CancelOnFirstError)) q)) :=
  ⟨Or.inl rfl,
   manage_called_once_before_decrement none none (some (Repanic CancelOnFirstError))
     [.ok none, .panics "b"] (Or.inl rfl)⟩

/-- C3: within one run, the sequence numbers returned by the successive
`Manage` calls are exactly `1, 2, 3, ...` in completion order — unique,
strictly increasing from `1` with no gaps — for every entry point, every
Manager and every completion order; when the run drains (no escaping
fault) there are exactly as many as workers. -/
theorem manage_sequence_numbers
    (octx : Option Ctx) (oe : Option Executer) (om : Option Manager) (g : List WorkerRes) :
    (manageSeqs (Work octx oe om g) =
      List.range' 1 (manageArgs (Work octx oe om g)).length) ∧
    (NoFatal (mgrOf om) g → manageSeqs (Work octx oe om g) = List.range' 1 g.length) ∧
    (∀ (n : Nat) (w : Nat → WorkerRes) (ord : List Nat),
      WorkFor octx n oe om w ord = Work octx oe om (ord.map w)) ∧
    (∀ q : List WorkerRes, WorkChan octx oe om q = Work octx oe om q) := by
  have hmain : manageSeqs (Work octx oe om g) =
      List.range' 1 (manageArgs (Work octx oe om g)).length := by
    rw [Work_eq, manageSeqs_finishRun, manageArgs_finishRun]
    simpa using manageSeqs_runTasks (mgrOf om) g mgrInit
  refine ⟨hmain, ?_, ?_, ?_⟩
  · intro hnf
    obtain ⟨_, h2, _, _⟩ := runTasks_parts (mgrOf om) g mgrInit hnf
    rw [hmain, Work_eq, manageArgs_finishRun, h2, List.length_map]
  · intro n w ord
    rw [WorkFor_eq, Work_eq]
  · intro q
    rw [WorkChan_eq, Work_eq]

theorem manage_sequence_numbers_witness :
    NoFatal (mgrOf none) [.ok none, .ok (some (.msg "x")), .ok none] ∧
    manageSeqs (Work none none none [.ok none, .ok (some (.msg "x")), .ok none]) =
      List.range' 1 3 :=
  ⟨Or.inr (by decide),
   (manage_sequence_numbers none none none [.ok none, .ok (some (.msg "x")), .ok none]).2.1
     (Or.inr (by decide))⟩

/-- C4: on every exit path of `Work`, `WorkFor` and `WorkChan` that
returns control to the caller — normal return, error result, or fault
re-raise — the run's child cancellation scope is cancelled (the deferred
`cancel()`) immediately before the exit, for every Manager, including
those that never trigger cancellation themselves. -/
theorem child_scope_cancelled_on_exit
    (octx : Option Ctx) (oe : Option Executer) (om : Option Manager) (g : List WorkerRes)
    (hnf : NoFatal (mgrOf om) g) :
    ((∃ p e, Work octx oe om g = p ++ [REv.cancelChild, REv.exitRet e]) ∨
     (∃ p v, Work octx oe om g = p ++ [REv.cancelChild, REv.exitPanic v])) ∧
    (∀ (n : Nat) (w : Nat → WorkerRes) (ord : List Nat),
      WorkFor octx n oe om w ord = Work octx oe om (ord.map w)) ∧
    (∀ q : List WorkerRes, WorkChan octx oe om q = Work octx oe om q) := by
  obtain ⟨h1, _, _, _⟩ := runTasks_parts (mgrOf om) g mgrInit hnf
  refine ⟨?_, ?_, ?_⟩
  · rw [Work_eq]
    rcases hcap : panicCap ((mgrOf om).resultSt (runTasks (mgrOf om) mgrInit g).2.1).1 with _ | v
    · exact Or.inl ⟨_, _, finishRun_ret h1 hcap⟩
    · exact Or.inr ⟨_, v, finishRun_repanic h1 hcap⟩
  · intro n w ord
    rw [WorkFor_eq, Work_eq]
  · intro q
    rw [WorkChan_eq, Work_eq]

theorem child_scope_cancelled_on_exit_witness :
    NoFatal (mgrOf none) [.ok (some (.msg "x"))] ∧
    ((∃ p e, Work none none none [.ok (some (.msg "x"))] =
        p ++ [REv.cancelChild, REv.exitRet e]) ∨
     (∃ p v, Work none none none [.ok (some (.msg "x"))] =
        p ++ [REv.cancelChild, REv.exitPanic v])) :=
  ⟨Or.inr (by decide),
   (child_scope_cancelled_on_exit none none none [.ok (some (.msg "x"))]
     (Or.inr (by decide))).1⟩

/-- C8: a missing (`nil`) scope defaults to the inert `context.TODO()`, a
missing executer to the Unbounded executer, and a missing manager to the
`CancelNeverFirstError` policy, in all three entry points, with behaviour
identical to passing those defaults explicitly. -/
theorem nil_arguments_use_defaults
    (g : List WorkerRes) (n : Nat) (w : Nat → WorkerRes) (ord : List Nat)
    (q : List WorkerRes) :
    Work none none none g =
      Work (some Ctx.todo) (some NewUnlimited) (some CancelNeverFirstError) g ∧
    WorkFor none n none none w ord =
      WorkFor (some Ctx.todo) n (some NewUnlimited) (some CancelNeverFirstError) w ord ∧
    WorkChan none none none q =
      WorkChan (some Ctx.todo) (some NewUnlimited) (some CancelNeverFirstError) q ∧
    DefaultExecuter = NewUnlimited ∧ DefaultManager = CancelNeverFirstError :=
  ⟨rfl, rfl, rfl, rfl, rfl⟩

theorem firstSome_eq_none_or_mem (l : List (Option ErrVal)) :
    firstSome l = none ∨ firstSome l ∈ l := by
  induction l with
  | nil => exact Or.inl rfl
  | cons x l ih =>
    cases x with
    | none =>
      rcases ih with h | h
      · exact Or.inl (by rw [show firstSome (none :: l) = firstSome l from rfl, h])
      · exact Or.inr (List.mem_cons_of_mem _ (by rwa [show firstSome (none :: l) =
          firstSome l from rfl]))
    | some e => exact Or.inr (by simp [firstSome])

theorem panicCap_firstSome {l : List (Option ErrVal)} (h : ∀ x ∈ l, panicCap x = none) :
    panicCap (firstSome l) = none := by
  rcases firstSome_eq_none_or_mem l with h0 | h0
  · rw [h0]; rfl
  · exact h _ h0

/-- A worker behaviour that returns an ordinary outcome: no panic, and
the returned error value does not itself carry the `Panic()` re-raise
capability. -/
def okPlain : WorkerRes → Bool
  | .ok e => (panicCap e).isNone
  | .panics _ => false

theorem okPlain_spec {r : WorkerRes} (h : okPlain r = true) :
    ∃ e, r = .ok e ∧ panicCap e = none := by
  cases r with
  | ok e => exact ⟨e, rfl, by simpa [okPlain, Option.isNone_iff_eq_none] using h⟩
  | panics v => simp [okPlain] at h

/-- C2: a run of `Work`/`WorkFor` with the Unbounded Executer and the
`CancelNeverFirstError` Manager executes every worker exactly once (one
`Manage` call per worker, in completion order, a permutation of the
submitted workers), never triggers policy cancellation, and returns the
first non-nil outcome in completion-sequence order — nil when every
worker returned nil. -/
theorem cancelNeverFirstError_run
    (octx : Option Ctx) (ord g : List WorkerRes)
    (hok : ∀ r ∈ ord, okPlain r = true)
    (hperm : ord.Perm g) :
    (∃ body,
      Work octx (some NewUnlimited) (some CancelNeverFirstError) ord =
        body ++ [REv.cancelChild, REv.exitRet (firstSome (ord.map errArg))] ∧
      manageArgs body = ord.map errArg ∧
      countDone body = ord.length ∧
      countCancel body = 0) ∧
    (ord.map errArg).Perm (g.map errArg) ∧
    ((∀ r ∈ g, r = .ok none) → firstSome (ord.map errArg) = none) ∧
    (∀ (n : Nat) (w : Nat → WorkerRes) (oi : List Nat),
      WorkFor octx n (some NewUnlimited) (some CancelNeverFirstError) w oi =
        Work octx (some NewUnlimited) (some CancelNeverFirstError) (oi.map w)) := by
  have hnf : NoFatal CancelNeverFirstError ord := by
    refine Or.inr fun r hr => ?_
    obtain ⟨e, rfl, _⟩ := okPlain_spec (hok r hr)
    rfl
  obtain ⟨h1, h2, h3, _⟩ := runTasks_parts CancelNeverFirstError ord mgrInit hnf
  have hmapeq : ord.map (effOut CancelNeverFirstError) = ord.map errArg := by
    refine List.map_congr_left fun r hr => ?_
    obtain ⟨e, rfl, _⟩ := okPlain_spec (hok r hr)
    rfl
  have hfe : (runTasks CancelNeverFirstError mgrInit ord).2.1.firstErr =
      firstSome (ord.map errArg) := by
    rw [runTasks_firstErr CancelNeverFirstError ord mgrInit hnf, hmapeq]
    rfl
  have hcap : panicCap
      (CancelNeverFirstError.resultSt (runTasks CancelNeverFirstError mgrInit ord).2.1).1 =
      none := by
    show panicCap (runTasks CancelNeverFirstError mgrInit ord).2.1.firstErr = none
    rw [hfe]
    refine panicCap_firstSome fun x hx => ?_
    rw [List.mem_map] at hx
    obtain ⟨r, hr, rfl⟩ := hx
    obtain ⟨e, rfl, he⟩ := okPlain_spec (hok r hr)
    exact he
  refine ⟨⟨(runTasks CancelNeverFirstError mgrInit ord).1, ?_, h2, h3, ?_⟩, ?_, ?_, ?_⟩
  · rw [Work_eq]
    have := finishRun_ret (m := CancelNeverFirstError) (g := ord) h1 hcap
    rw [show mgrOf (some CancelNeverFirstError) = CancelNeverFirstError from rfl, this]
    have hval : (CancelNeverFirstError.resultSt
        (CancelNeverFirstError.resultSt (runTasks CancelNeverFirstError mgrInit ord).2.1).2).1 =
        firstSome (ord.map errArg) := by
      show (runTasks CancelNeverFirstError mgrInit ord).2.1.firstErr = _
      exact hfe
    rw [hval]
  · exact countCancel_runTasks_nocancel CancelNeverFirstError (fun _ _ => rfl) ord mgrInit
  · exact hperm.map errArg
  · intro hall
    refine firstSome_all_none fun x hx => ?_
    rw [List.mem_map] at hx
    obtain ⟨r, hr, rfl⟩ := hx
    have := hall r (hperm.mem_iff.mp hr)
    subst this
    rfl
  · intro n w oi
    rw [WorkFor_eq, Work_eq]

theorem cancelNeverFirstError_run_witness :
    (∀ r ∈ [WorkerRes.ok none, WorkerRes.ok (some (.msg "a"))], okPlain r = true) ∧
    ([WorkerRes.ok none, WorkerRes.ok (some (.msg "a"))].Perm
      [WorkerRes.ok (some (.msg "a")), WorkerRes.ok none]) ∧
    (∃ body,
      Work none (some NewUnlimited) (some CancelNeverFirstError)
          [WorkerRes.ok none, WorkerRes.ok (some (.msg "a"))] =
        body ++ [REv.cancelChild,
          REv.exitRet (firstSome ([WorkerRes.ok none,
            WorkerRes.ok (some (.msg "a"))].map errArg))] ∧
      manageArgs body = [WorkerRes.ok none, WorkerRes.ok (some (.msg "a"))].map errArg ∧
      countDone body = [WorkerRes.ok none, WorkerRes.ok (some (.msg "a"))].length ∧
      countCancel body = 0) :=
  ⟨by decide, by decide,
   (cancelNeverFirstError_run none [WorkerRes.ok none, WorkerRes.ok (some (.msg "a"))]
     [WorkerRes.ok (some (.msg "a")), WorkerRes.ok none] (by decide) (by decide)).1⟩

/-- C5, counterexample to the claim as stated: in a run with the
`Repanic`-decorated `CancelOnFirstError` Manager where a worker panics
with `"boom"` but another worker's ordinary error completes first, the
aggregate result is the ordinary error, the entry point returns normally,
and no re-raise of `"boom"` happens anywhere in the run. -/
theorem repanic_reraise_claim_counterexample :
    (Work none none (some (Repanic CancelOnFirstError))
        [.ok (some (.msg "e")), .panics "boom"]).getLast? =
      some (REv.exitRet (some (.msg "e"))) ∧
    ∀ ev ∈ Work none none (some (Repanic CancelOnFirstError))
        [.ok (some (.msg "e")), .panics "boom"],
      ev ≠ REv.exitPanic "boom" := by decide

/-- C5 as amended: when a run uses a `Repanic`-decorated Manager, a
worker raises a fault with value `v`, and the fault's outcome is the one
the inner Manager's aggregation selects (here `CancelOnFirstError` with
every earlier-completing worker returning nil), the entry point exits by
re-raising the original value `v` — not the wrapped `PanicError` — and
only after every worker of the run has completed and been Managed. -/
theorem repanic_reraises_original_after_drain
    (octx : Option Ctx) (oe : Option Executer) (pre post : List WorkerRes) (v : String)
    (hpre : ∀ r ∈ pre, r = .ok none) :
    ∃ body,
      Work octx oe (some (Repanic CancelOnFirstError)) (pre ++ .panics v :: post) =
        body ++ [REv.cancelChild, REv.exitPanic v] ∧
      countDone body = (pre ++ .panics v :: post).length ∧
      manageArgs body = (pre ++ .panics v :: post).map errArg := by
  have hnf : NoFatal (Repanic CancelOnFirstError) (pre ++ .panics v :: post) := Or.inl rfl
  obtain ⟨h1, h2, h3, _⟩ :=
    runTasks_parts (Repanic CancelOnFirstError) (pre ++ .panics v :: post) mgrInit hnf
  have hfe : (runTasks (Repanic CancelOnFirstError) mgrInit
      (pre ++ .panics v :: post)).2.1.firstErr = some (.panicError v true) := by
    rw [runTasks_firstErr _ _ _ hnf, List.map_append, List.map_cons]
    rw [firstSome_append_none]
    · rfl
    · intro x hx
      rw [List.mem_map] at hx
      obtain ⟨r, hr, rfl⟩ := hx
      have := hpre r hr
      subst this
      rfl
  have hcap : panicCap ((Repanic CancelOnFirstError).resultSt
      (runTasks (Repanic CancelOnFirstError) mgrInit (pre ++ .panics v :: post)).2.1).1 =
      some v := by
    show panicCap (runTasks (Repanic CancelOnFirstError) mgrInit
      (pre ++ .panics v :: post)).2.1.firstErr = some v
    rw [hfe]
    rfl
  refine ⟨(runTasks (Repanic CancelOnFirstError) mgrInit (pre ++ .panics v :: post)).1,
    ?_, h3, h2⟩
  rw [Work_eq]
  exact finishRun_repanic h1 hcap

theorem repanic_reraises_original_after_drain_witness :
    (∀ r ∈ [WorkerRes.ok none], r = WorkerRes.ok none) ∧
    ∃ body,
      Work none none (some (Repanic CancelOnFirstError))
          ([WorkerRes.ok none] ++ WorkerRes.panics "boom" :: [WorkerRes.ok (some .canceled)]) =
        body ++ [REv.cancelChild, REv.exitPanic "boom"] ∧
      countDone body =
        ([WorkerRes.ok none] ++ WorkerRes.panics "boom" :: [WorkerRes.ok (some .canceled)]).length ∧
      manageArgs body =
        ([WorkerRes.ok none] ++ WorkerRes.panics "boom" :: [WorkerRes.ok (some .canceled)]).map errArg :=
  ⟨by decide,
   repanic_reraises_original_after_drain none none [WorkerRes.ok none]
     [WorkerRes.ok (some .canceled)] "boom" (by decide)⟩

/-- C6, counterexample to the claim as stated: in a run with the
`Recover`-decorated `CancelOnFirstError` Manager where a worker panics
with `"boom"` but another worker's ordinary error completes first, the
run's result is that ordinary error — not a `PanicError`, and its
description is not `"panic: boom"`. -/
theorem recover_result_claim_counterexample :
    (Work none none (some (Recover CancelOnFirstError))
        [.ok (some (.msg "x")), .panics "boom"]).getLast? =
      some (REv.exitRet (some (.msg "x"))) ∧
    (ErrVal.msg "x").error ≠ "panic: " ++ "boom" ∧
    ∀ b : Bool, ErrVal.msg "x" ≠ ErrVal.panicError "boom" b := by decide

/-- C6 as amended: when a run uses a `Recover`-decorated Manager and a
worker raises a fault with value `v`, the run completes normally — a
normal return, with every worker executed and Managed — and, when the
fault's outcome is the one the inner Manager's aggregation selects (here
`CancelOnFirstError` with every earlier-completing worker returning nil),
the run's result is the `PanicError` whose description is exactly
`"panic: "` followed by `v`. -/
theorem recover_converts_fault_to_panic_error
    (octx : Option Ctx) (oe : Option Executer) (pre post : List WorkerRes) (v : String)
    (hpre : ∀ r ∈ pre, r = .ok none) :
    ∃ body,
      Work octx oe (some (Recover CancelOnFirstError)) (pre ++ .panics v :: post) =
        body ++ [REv.cancelChild, REv.exitRet (some (.panicError v false))] ∧
      countDone body = (pre ++ .panics v :: post).length ∧
      (ErrVal.panicError v false).error = "panic: " ++ v := by
  have hnf : NoFatal (Recover CancelOnFirstError) (pre ++ .panics v :: post) := Or.inl rfl
  obtain ⟨h1, _, h3, _⟩ :=
    runTasks_parts (Recover CancelOnFirstError) (pre ++ .panics v :: post) mgrInit hnf
  have hfe : (runTasks (Recover CancelOnFirstError) mgrInit
      (pre ++ .panics v :: post)).2.1.firstErr = some (.panicError v false) := by
    rw [runTasks_firstErr _ _ _ hnf, List.map_append, List.map_cons]
    rw [firstSome_append_none]
    · rfl
    · intro x hx
      rw [List.mem_map] at hx
      obtain ⟨r, hr, rfl⟩ := hx
      have := hpre r hr
      subst this
      rfl
  have hcap : panicCap ((Recover CancelOnFirstError).resultSt
      (runTasks (Recover CancelOnFirstError) mgrInit (pre ++ .panics v :: post)).2.1).1 =
      none := by
    show panicCap (runTasks (Recover CancelOnFirstError) mgrInit
      (pre ++ .panics v :: post)).2.1.firstErr = none
    rw [hfe]
    rfl
  refine ⟨(runTasks (Recover CancelOnFirstError) mgrInit (pre ++ .panics v :: post)).1,
    ?_, h3, rfl⟩
  rw [Work_eq]
  have := finishRun_ret (m := Recover CancelOnFirstError) (g := pre ++ .panics v :: post) h1 hcap
  rw [show mgrOf (some (Recover CancelOnFirstError)) = Recover CancelOnFirstError from rfl, this]
  have hval : ((Recover CancelOnFirstError).resultSt
      ((Recover CancelOnFirstError).resultSt (runTasks (Recover CancelOnFirstError) mgrInit
        (pre ++ .panics v :: post)).2.1).2).1 = some (ErrVal.panicError v false) := by
    show (runTasks (Recover CancelOnFirstError) mgrInit
      (pre ++ .panics v :: post)).2.1.firstErr = _
    exact hfe
  rw [hval]

theorem recover_converts_fault_to_panic_error_witness :
    (∀ r ∈ [WorkerRes.ok none], r = WorkerRes.ok none) ∧
    ∃ body,
      Work none none (some (Recover CancelOnFirstError))
          ([WorkerRes.ok none] ++ WorkerRes.panics "boom" :: []) =
        body ++ [REv.cancelChild, REv.exitRet (some (.panicError "boom" false))] ∧
      countDone body = ([WorkerRes.ok none] ++ WorkerRes.panics "boom" :: []).length ∧
      (ErrVal.panicError "boom" false).error = "panic: " ++ "boom" :=
  ⟨by decide,
   recover_converts_fault_to_panic_error none none [WorkerRes.ok none] [] "boom" (by decide)⟩

theorem execStep_bounded {k : Nat} {e : Executer}
    (he : e = NewLimited k ∨ ∃ c, e = NewPool c k) (s : SemSt) (ev : SemEv) :
    execStep e s ev = semStep k s ev := by
  rcases he with rfl | ⟨c, rfl⟩ <;> rfl

theorem execRun_running_le {k : Nat} {e : Executer}
    (he : e = NewLimited k ∨ ∃ c, e = NewPool c k) :
    ∀ (tr : List SemEv) (s0 s' : SemSt), s0.running ≤ k →
      execRun e s0 tr = some s' → s'.running ≤ k := by
  intro tr
  induction tr with
  | nil =>
    intro s0 s' h0 h
    simp [execRun] at h
    rwa [← h]
  | cons ev l ih =>
    intro s0 s' h0 h
    rw [show execRun e s0 (ev :: l) = (execStep e s0 ev).bind fun s1 => execRun e s1 l
      from rfl, execStep_bounded he] at h
    obtain ⟨s1, hs1, h2⟩ := Option.bind_eq_some.mp h
    refine ih s1 s' ?_ h2
    cases ev with
    | submit =>
      simp only [semStep] at hs1
      injection hs1 with hs1
      rw [← hs1]
      exact h0
    | start =>
      simp only [semStep] at hs1
      split at hs1
      · rename_i hg
        injection hs1 with hs1
        rw [← hs1]
        have := hg.2
        simpa using this
      · exact absurd hs1 (by simp)
    | finish =>
      simp only [semStep] at hs1
      split at hs1
      · injection hs1 with hs1
        rw [← hs1]
        simp only []
        omega
      · exact absurd hs1 (by simp)

theorem execRun_append (e : Executer) (p : List SemEv) : ∀ (q : List SemEv) (s : SemSt),
    execRun e s (p ++ q) = (execRun e s p).bind fun s' => execRun e s' q := by
  induction p with
  | nil => intro q s; simp [execRun]
  | cons ev l ih =>
    intro q s
    show (execStep e s ev).bind (fun s1 => execRun e s1 (l ++ q)) = _
    cases hst : execStep e s ev with
    | none => simp [execRun, hst]
    | some s1 => simp [execRun, hst, ih]

/-- C7: for every capacity `k ≥ 1`, the `NewLimited(k)` and
`NewPool(_, k)` Executers never have more than `k` worker bodies running
at any instant of any admissible schedule — every reachable state, in
every prefix of a valid trace, has at most `k` running bodies — while the
`Execute` submission step is enabled in every state, so submitting never
blocks the caller. -/
theorem bounded_executer_concurrency_bound
    (k : Nat) (e : Executer) (_hk : 1 ≤ k)
    (he : e = NewLimited k ∨ ∃ c, e = NewPool c k) :
    (∀ (tr : List SemEv) (s' : SemSt), execRun e ⟨0, 0⟩ tr = some s' → s'.running ≤ k) ∧
    (∀ (tr p : List SemEv), (execRun e ⟨0, 0⟩ tr).isSome → p <+: tr →
      ∃ s', execRun e ⟨0, 0⟩ p = some s' ∧ s'.running ≤ k) ∧
    (∀ s : SemSt, (execStep e s .submit).isSome) := by
  have hmain : ∀ (tr : List SemEv) (s' : SemSt),
      execRun e ⟨0, 0⟩ tr = some s' → s'.running ≤ k := by
    intro tr s' h
    exact execRun_running_le he tr ⟨0, 0⟩ s' (Nat.zero_le k) h
  refine ⟨hmain, ?_, ?_⟩
  · intro tr p hv hp
    obtain ⟨t, rfl⟩ := hp
    rw [execRun_append] at hv
    cases hpr : execRun e ⟨0, 0⟩ p with
    | none => rw [hpr] at hv; simp at hv
    | some s' => exact ⟨s', rfl, hmain p s' hpr⟩
  · intro s
    rw [execStep_bounded he]
    rfl

theorem bounded_executer_concurrency_bound_witness :
    1 ≤ 1 ∧
    (∀ (tr : List SemEv) (s' : SemSt),
      execRun (NewLimited 1) ⟨0, 0⟩ tr = some s' → s'.running ≤ 1) :=
  ⟨Nat.le_refl 1,
   (bounded_executer_concurrency_bound 1 (NewLimited 1) (Nat.le_refl 1) (Or.inl rfl)).1⟩

/-- The Managers constructible from this library's public constructors:
the four built-in policies and their `Recover`/`Repanic` decorations. -/
def BuiltinMgr (m : Manager) : Prop :=
  m = CancelNeverFirstError ∨ m = CancelOnFirstError ∨ m = CancelOnFirstSuccess ∨
    m = CancelOnFirstComplete ∨
    ∃ m', (m' = CancelNeverFirstError ∨ m' = CancelOnFirstError ∨
        m' = CancelOnFirstSuccess ∨ m' = CancelOnFirstComplete) ∧
      (m = Recover m' ∨ m = Repanic m')

/-- C9: the tail of every entry point evaluates `m.Result()` twice — once
to probe for the `Panic()` re-raise capability and once to produce the
returned value (visible in `finishRun`) — and for every Manager built
from this library's constructors `Result()` is idempotent and
state-preserving, so on the normal path the value the entry point returns
equals the value the probe call observed. -/
theorem result_probe_and_return_agree (m : Manager) (hb : BuiltinMgr m) :
    (∀ s : MgrSt, m.resultSt (m.resultSt s).2 = m.resultSt s) ∧
    (∀ (octx : Option Ctx) (oe : Option Executer) (g : List WorkerRes),
      NoFatal m g →
      panicCap (m.resultSt (runTasks m mgrInit g).2.1).1 = none →
      Work octx oe (some m) g =
        (runTasks m mgrInit g).1 ++
          [REv.cancelChild, REv.exitRet (m.resultSt (runTasks m mgrInit g).2.1).1]) := by
  have hp : ∀ s : MgrSt, (m.resultSt s).2 = s := by
    rcases hb with rfl | rfl | rfl | rfl | ⟨m', hm', h⟩
    · intro s; rfl
    · intro s; rfl
    · intro s; rfl
    · intro s; rfl
    · rcases h with rfl | rfl <;> rcases hm' with rfl | rfl | rfl | rfl <;> (intro s; rfl)
  constructor
  · intro s
    rw [hp s]
  · intro octx oe g hnf hcap
    rw [Work_eq]
    have h1 := (runTasks_parts m g mgrInit hnf).1
    rw [show mgrOf (some m) = m from rfl, finishRun_ret h1 hcap, hp]

theorem result_probe_and_return_agree_witness :
    BuiltinMgr CancelNeverFirstError ∧
    CancelNeverFirstError.resultSt (CancelNeverFirstError.resultSt mgrInit).2 =
      CancelNeverFirstError.resultSt mgrInit :=
  ⟨Or.inl rfl, (result_probe_and_return_agree CancelNeverFirstError (Or.inl rfl)).1 mgrInit⟩

/-- C10: when a worker body panics, the deferred `Manage` call receives
`nil` as its outcome argument — the zero value of the `err` variable,
indistinguishable from success, since the assignment of the worker's
return value never executed — and the `Manage` call (and the counter
decrement) still run before the fault continues unwinding out of the
task (for a non-recovering Manager, `Manage nil` then `Done` immediately
precede the fault's escape). -/
theorem panicking_worker_manage_arg_is_nil
    (octx : Option Ctx) (oe : Option Executer) (om : Option Manager)
    (pre post : List WorkerRes) (v : String)
    (hpre : ∀ r ∈ pre, r.isPanics = false) :
    (manageArgs (Work octx oe om (pre ++ .panics v :: post)))[pre.length]? = some none ∧
    ((mgrOf om).recovers = false →
      Work octx oe om (pre ++ .panics v :: post) =
        (runTasks (mgrOf om) mgrInit pre).1 ++
          REv.manage none (pre.length + 1) ::
            ((if (mgrOf om).cancelOn (runTasks (mgrOf om) mgrInit pre).2.1 none
              then [REv.cancelChild, REv.done] else [REv.done]) ++ [REv.exitFatal v])) := by
  have hnfPre : NoFatal (mgrOf om) pre := Or.inr hpre
  have hsplit := runTasks_append (mgrOf om) pre (.panics v :: post) mgrInit hnfPre
  obtain ⟨_, h2pre, _, h4pre⟩ := runTasks_parts (mgrOf om) pre mgrInit hnfPre
  have hseq : (runTasks (mgrOf om) mgrInit pre).2.1.seq = pre.length := by
    rw [h4pre]
    exact Nat.zero_add _
  constructor
  · have htail : ∃ X, manageArgs (runTasks (mgrOf om)
        (runTasks (mgrOf om) mgrInit pre).2.1 (.panics v :: post)).1 = none :: X := by
      cases hr : (mgrOf om).recovers with
      | true =>
        rw [runTasks_cons_panics_rec _ _ _ _ hr]
        exact ⟨_, manageArgs_block_append _ _ _ _⟩
      | false =>
        rw [runTasks_cons_panics_norec _ _ _ _ hr]
        exact ⟨_, manageArgs_block_append _ _ _ _⟩
    obtain ⟨X, hX⟩ := htail
    rw [Work_eq, manageArgs_finishRun, hsplit]
    show (manageArgs (_ ++ _))[pre.length]? = some none
    rw [manageArgs_append, h2pre, hX]
    have hlen : (pre.map errArg).length = pre.length := List.length_map _ _
    rw [show pre.length = (pre.map errArg).length from hlen.symm,
      List.getElem?_append_right (Nat.le_refl _)]
    simp
  · intro hr
    have htail := runTasks_cons_panics_norec (mgrOf om)
      (runTasks (mgrOf om) mgrInit pre).2.1 v post hr
    have hfatal : (runTasks (mgrOf om) mgrInit (pre ++ .panics v :: post)).2.2 = some v := by
      rw [hsplit, htail]
    rw [Work_eq, finishRun_fatal hfatal, hsplit]
    show (runTasks (mgrOf om) mgrInit pre).1 ++
      (runTasks (mgrOf om) (runTasks (mgrOf om) mgrInit pre).2.1 (.panics v :: post)).1 = _
    rw [htail, hseq]

theorem panicking_worker_manage_arg_is_nil_witness :
    (∀ r ∈ [WorkerRes.ok none], r.isPanics = false) ∧
    ((manageArgs (Work none none none
        ([WorkerRes.ok none] ++ WorkerRes.panics "boom" :: [])))[
          [WorkerRes.ok none].length]? = some none ∧
      ((mgrOf none).recovers = false →
        Work none none none ([WorkerRes.ok none] ++ WorkerRes.panics "boom" :: []) =
          (runTasks (mgrOf none) mgrInit [WorkerRes.ok none]).1 ++
            REv.manage none ([WorkerRes.ok none].length + 1) ::
              ((if (mgrOf none).cancelOn
                  (runTasks (mgrOf none) mgrInit [WorkerRes.ok none]).2.1 none
                then [REv.cancelChild, REv.done] else [REv.done]) ++
                [REv.exitFatal "boom"]))) :=
  ⟨by decide,
   panicking_worker_manage_arg_is_nil none none none [WorkerRes.ok none] [] "boom" (by decide)⟩

end Workgroup
